import Mathlib

/-!
Verification of the beacon-frame packing and advertising core of
minigotchi-ESP32 (`frame.cpp` / `frame.h`).

The embedding models bytes as natural numbers (with `% 256` where the code
stores into `uint8_t`), `std::vector<uint8_t>` buffers as `List ℕ`, and the
static members of class `Frame` as an explicit `FrameState` record threaded
through `pack`.
-/

set_option maxRecDepth 100000

namespace Minigotchi

/-- Payload marker byte `Frame::IDWhisperPayload = 0xDE` (frame.cpp line 48). -/
def IDWhisperPayload : ℕ := 0xDE

/-- Chunk size bound `Frame::chunkSize = 0xFF` (frame.cpp line 40). -/
def chunkSize : ℕ := 0xFF

/-- The fixed 36-byte beacon header `Frame::header` (frame.cpp lines 59-96):
frame control, duration, broadcast destination, source, bssid, sequence,
timestamp, interval, capability info. -/
def header : List ℕ :=
  [0x80, 0x00,
   0x00, 0x00,
   0xff, 0xff, 0xff, 0xff, 0xff, 0xff,
   0xde, 0xad, 0xbe, 0xef, 0xde, 0xad,
   0xa1, 0x00, 0x64, 0xe6, 0x0b, 0x8b,
   0x40, 0x43,
   0x00, 0x00, 0x00, 0x00, 0x00, 0x00, 0x00, 0x00,
   0x64, 0x00,
   0x11, 0x04]

/-- `Frame::pwngridHeaderLength = sizeof(Frame::header)` (frame.cpp line 99). -/
def pwngridHeaderLength : ℕ := header.length

/-- The data byte written for one serialized byte (frame.cpp lines 186-191):
`uint8_t nextByte = '?'; if (isAscii(jsonString[i])) nextByte = jsonString[i];`.
Arduino `isAscii` holds exactly for byte values 0..127 (`char` is signed, so
bytes ≥ 0x80 are negative and fail the test). -/
def nextByte (b : ℕ) : ℕ := if b < 128 then b else 0x3F

/-- The chunking loop of `Frame::pack` (frame.cpp lines 175-192), translated
one iteration per list element: `i` is the loop index, the list argument holds
`jsonString[i], jsonString[i+1], ...`, `p` is the current value of the static
`Frame::payloadSize`, and `L` is `Frame::essidLength`.  Returns the bytes
written (consecutively, starting at `currentByte = pwngridHeaderLength`)
together with the final value of `Frame::payloadSize`.  The `% 256` on the
length byte reflects the store of the `size_t` value into a `uint8_t` cell. -/
def packLoop (L : ℕ) : ℕ → List ℕ → ℕ → List ℕ × ℕ
  | _, [], p => ([], p)
  | i, b :: rest, p =>
    if i = 0 ∨ i % 255 = 0 then
      let p' := if L - i < chunkSize then L - i else p
      let r := packLoop L (i + 1) rest p'
      (IDWhisperPayload :: p' % 256 :: nextByte b :: r.1, r.2)
    else
      let r := packLoop L (i + 1) rest p
      (nextByte b :: r.1, r.2)

/-- The static members of class `Frame` that `pack` reads and writes
(frame.cpp lines 39-45). -/
structure FrameState where
  payloadSize : ℕ
  beaconFrame : List ℕ
  essidLength : ℕ
  headerLength : ℕ

/-- Initial values of the statics: `payloadSize = 255` ("by default",
frame.cpp line 39), empty beacon frame vector, zero lengths. -/
def initState : FrameState :=
  { payloadSize := 255, beaconFrame := [], essidLength := 0, headerLength := 0 }

/-- `Frame::headerLength = ((uint8_t)(essidLength / 255) * 2)` (frame.cpp
line 163): the quotient is truncated to `uint8_t`, doubled, and the result is
stored into the `uint8_t` static, hence the two `% 256`. -/
def headerLengthOf (L : ℕ) : ℕ := (L / 255 % 256 * 2) % 256

/-- Size passed to `beaconFrame.resize` (frame.cpp line 164):
`pwngridHeaderLength + essidLength + headerLength + chunkSize`. -/
def bufSize (L : ℕ) : ℕ := pwngridHeaderLength + L + headerLengthOf L + chunkSize

/-- `std::vector::resize(n)`: keep the first `n` elements, value-initialize
(zero) any growth. -/
def listResize (l : List ℕ) (n : ℕ) : List ℕ :=
  l.take n ++ List.replicate (n - l.length) 0

/-- Consecutive in-place byte writes starting at `pos` (the `memcpy` on
frame.cpp line 165 and the `beaconFrame[currentByte++] = ...` stores). -/
def listOverwrite (l : List ℕ) (pos : ℕ) (d : List ℕ) : List ℕ :=
  l.take pos ++ d ++ l.drop (pos + d.length)

/-- `Frame::pack` (frame.cpp lines 119-206) from the point where the document
is serialized: `json` is the serialized document byte sequence (so
`essidLength = measureJson(doc) = json.length`), the buffer is resized,
the header copied in, and the chunking loop run from
`currentByte = pwngridHeaderLength` with the incoming `payloadSize`. -/
def pack (st : FrameState) (json : List ℕ) : FrameState :=
  let L := json.length
  let hl := headerLengthOf L
  let resized := listResize st.beaconFrame (pwngridHeaderLength + L + hl + chunkSize)
  let withHeader := listOverwrite resized 0 header
  let r := packLoop L 0 json st.payloadSize
  { payloadSize := r.2,
    beaconFrame := listOverwrite withHeader pwngridHeaderLength r.1,
    essidLength := L,
    headerLength := hl }

/-- The chunk region: the bytes the chunking loop writes, located at offsets
`pwngridHeaderLength, pwngridHeaderLength + 1, ...` of the packed buffer. -/
def chunkRegion (st : FrameState) (json : List ℕ) : List ℕ :=
  (packLoop json.length 0 json st.payloadSize).1

/-- Length argument `Frame::send` hands to `esp_wifi_80211_tx` (frame.cpp
lines 216-217): `Frame::beaconFrame.size()` after `Frame::pack()`. -/
def sentLength (st : FrameState) (json : List ℕ) : ℕ :=
  (pack st json).beaconFrame.length

/-- Chunk-level specification of the loop output: one recursive step per
chunk of at most 255 data bytes.  Bridged to `packLoop` by
`packLoop_eq_chunksOf`. -/
def chunksOf (p : ℕ) (s : List ℕ) : List ℕ × ℕ :=
  if h : s = [] then ([], p)
  else
    let p' := if s.length < chunkSize then s.length else p
    let r := chunksOf p' (s.drop 255)
    (IDWhisperPayload :: p' % 256 :: ((s.take 255).map nextByte ++ r.1), r.2)
termination_by s.length
decreasing_by
  have h0 : 0 < s.length := List.length_pos.mpr h
  simp only [List.length_drop]
  omega

/-- The sequence of per-chunk data-byte counts for a document split at
255-byte boundaries. -/
def chunkLens (s : List ℕ) : List ℕ :=
  if h : s = [] then [] else min chunkSize s.length :: chunkLens (s.drop 255)
termination_by s.length
decreasing_by
  have h0 : 0 < s.length := List.length_pos.mpr h
  simp only [List.length_drop]
  omega

/-- Parse a chunk region as a reader would: marker byte, length byte, then
exactly `length` data bytes, repeated to the end.  Returns `none` when the
region is not a well-formed chunk sequence. -/
def parseChunks : List ℕ → Option (List (ℕ × List ℕ))
  | [] => some []
  | m :: len :: rest =>
    if m = IDWhisperPayload ∧ len ≤ rest.length then
      (parseChunks (rest.drop len)).map (fun cs => (len, rest.take len) :: cs)
    else none
  | _ => none
termination_by l => l.length
decreasing_by
  simp only [List.length_drop, List.length_cons]
  omega

/-- Structurally skip the marker and length byte of each chunk (the writer
emits one marker/length pair, then up to 255 data bytes, repeatedly),
returning the concatenation of all chunk data bytes. -/
def stripChunkHeaders : List ℕ → List ℕ
  | _ :: _ :: rest => rest.take 255 ++ stripChunkHeaders (rest.drop 255)
  | _ => []
termination_by l => l.length
decreasing_by
  simp only [List.length_drop, List.length_cons]
  omega

/-- Observable events of one `Frame::advertise()` call (frame.cpp lines
222-258): a raw-transmit invocation (`esp_wifi_80211_tx` inside
`Frame::send`), an emitted packets-per-second report carrying the success
count and the elapsed milliseconds (`pps = packets / elapsedMs * 1000`,
printed only when `!isinf(pps)`, i.e. only when `elapsedMs ≠ 0` since
`packets ≥ 1` at that point), or a send-failure log line. -/
inductive AdvEvent where
  | txCall : AdvEvent
  | rateLine : ℕ → ℕ → AdvEvent
  | failLine : AdvEvent
deriving DecidableEq

/-- Recognizer for the raw-transmit event. -/
def isTxCall : AdvEvent → Bool
  | .txCall => true
  | _ => false

/-- One iteration of the advertise loop body (frame.cpp lines 231-248):
`Frame::send()` performs exactly one `esp_wifi_80211_tx` call; on success the
packet counter is incremented and the pps line is printed unless
`isinf(pps)`, which for `packets ≥ 1` holds exactly when the elapsed
milliseconds are zero; on failure a failure line is printed. -/
def advertiseStep (ok : Bool) (elapsedMs : ℕ) (packets : ℕ) : ℕ × List AdvEvent :=
  if ok then
    let p := packets + 1
    if elapsedMs = 0 then (p, [.txCall])
    else (p, [.txCall, .rateLine p elapsedMs])
  else (packets, [.txCall, .failLine])

/-- `Frame::advertise()` (frame.cpp lines 222-258): when `Config::advertise`
is true, run 150 iterations of pack+send, threading the packet counter and
collecting the event trace; otherwise do nothing.  `ok i` abstracts the
result of the `i`-th `Frame::send()`, `elapsedMs i` the value of
`millis() - startTime` at the `i`-th iteration. -/
def advertise (advertiseFlag : Bool) (ok : ℕ → Bool) (elapsedMs : ℕ → ℕ) :
    List AdvEvent :=
  if advertiseFlag then
    ((List.range 150).foldl
      (fun st i =>
        let r := advertiseStep (ok i) (elapsedMs i) st.1
        (r.1, st.2 ++ r.2))
      (0, [])).2
  else []

/-! ## Bridge lemmas: `packLoop` against the chunk-level view -/

lemma packLoop_nil (L i p : ℕ) : packLoop L i [] p = ([], p) := rfl

/-- Inside a chunk (no index in the run is a multiple of 255) the loop copies
data bytes one at a time. -/
lemma packLoop_run (L : ℕ) (t u : List ℕ) :
    ∀ i p, i % 255 ≠ 0 → i % 255 + t.length ≤ 255 →
    packLoop L i (t ++ u) p =
      (t.map nextByte ++ (packLoop L (i + t.length) u p).1,
       (packLoop L (i + t.length) u p).2) := by
  induction t with
  | nil => intro i p _ _; simp [packLoop]
  | cons b t ih =>
    intro i p h1 h2
    have hcond : ¬(i = 0 ∨ i % 255 = 0) := by omega
    simp only [List.cons_append, packLoop, if_neg hcond]
    cases t with
    | nil => simp [packLoop]
    | cons c t' =>
      simp only [List.length_cons] at h2 ⊢
      have h1' : (i + 1) % 255 ≠ 0 := by omega
      have h2' : (i + 1) % 255 + (c :: t').length ≤ 255 := by
        simp only [List.length_cons]; omega
      simp only [List.append_eq]
      rw [ih (i + 1) p h1' h2']
      simp only [List.length_cons] at h2'
      have harg : i + 1 + (t'.length + 1) = i + (t'.length + 1 + 1) := by omega
      simp [harg]

/-- One whole chunk step of the loop, starting at a chunk boundary. -/
lemma packLoop_step (L i p : ℕ) (s : List ℕ) (hne : s ≠ []) (hi : i % 255 = 0)
    (hL : L = i + s.length) :
    packLoop L i s p =
      ((IDWhisperPayload :: (if s.length < chunkSize then s.length else p) % 256 ::
          (s.take 255).map nextByte) ++
        (packLoop L (i + 255) (s.drop 255)
          (if s.length < chunkSize then s.length else p)).1,
       (packLoop L (i + 255) (s.drop 255)
          (if s.length < chunkSize then s.length else p)).2) := by
  obtain ⟨b, t, rfl⟩ := List.exists_cons_of_ne_nil hne
  have hsub : L - i = (b :: t).length := by omega
  simp only [packLoop, if_pos (Or.inr hi), hsub]
  set p' := if (b :: t).length < chunkSize then (b :: t).length else p with hp'
  rw [show (255 : ℕ) = 254 + 1 from rfl, List.take_succ_cons, List.drop_succ_cons]
  by_cases h254 : t.length ≤ 254
  · have htake : t.take 254 = t := List.take_of_length_le h254
    have hdrop : t.drop 254 = [] := List.drop_eq_nil_of_le h254
    rcases List.eq_nil_or_concat t with hnil | _
    · subst hnil; simp [packLoop]
    · have h1' : (i + 1) % 255 ≠ 0 := by omega
      have h2' : (i + 1) % 255 + t.length ≤ 255 := by omega
      have key := packLoop_run L t [] (i + 1) p' h1' h2'
      rw [List.append_nil] at key
      rw [key, htake, hdrop]
      simp [packLoop]
  · have htt : t.take 254 ++ t.drop 254 = t := List.take_append_drop 254 t
    have hl1 : (t.take 254).length = 254 := by
      simp [List.length_take]; omega
    have h1' : (i + 1) % 255 ≠ 0 := by omega
    have h2' : (i + 1) % 255 + (t.take 254).length ≤ 255 := by
      rw [hl1]; omega
    have key := packLoop_run L (t.take 254) (t.drop 254) (i + 1) p' h1' h2'
    rw [htt, hl1] at key
    have harg : i + 1 + 254 = i + 255 := by omega
    rw [harg] at key
    rw [key]
    simp

/-- The chunking loop, run from a chunk boundary over the whole remaining
document, produces exactly the chunk-level specification. -/
lemma packLoop_eq_chunksOf_aux :
    ∀ (n : ℕ) (s : List ℕ), s.length ≤ n → ∀ i p, i % 255 = 0 →
      packLoop (i + s.length) i s p = chunksOf p s := by
  intro n
  induction n with
  | zero =>
    intro s hs i p _
    have : s = [] := List.eq_nil_of_length_eq_zero (by omega)
    subst this
    simp [packLoop, chunksOf]
  | succ n ih =>
    intro s hs i p hi
    by_cases hne : s = []
    · subst hne; simp [packLoop, chunksOf]
    · rw [packLoop_step _ _ _ _ hne hi rfl, chunksOf, dif_neg hne]
      by_cases hle : s.length ≤ 255
      · have hdrop : s.drop 255 = [] := List.drop_eq_nil_of_le hle
        rw [hdrop]
        simp [packLoop, chunksOf]
      · have hpos : 0 < s.length := List.length_pos.mpr hne
        have hlen : (s.drop 255).length ≤ n := by
          simp only [List.length_drop]; omega
        have hi' : (i + 255) % 255 = 0 := by omega
        have harg : i + s.length = i + 255 + (s.drop 255).length := by
          simp only [List.length_drop]; omega
        rw [harg, ih (s.drop 255) hlen (i + 255) _ hi']
        simp

/-- Bridge: the loop of `Frame::pack`, started at index 0 with
`L = essidLength = s.length`, equals the chunk-level specification. -/
lemma packLoop_eq_chunksOf (s : List ℕ) (p : ℕ) :
    packLoop s.length 0 s p = chunksOf p s := by
  have h := packLoop_eq_chunksOf_aux s.length s le_rfl 0 p (by omega)
  simpa using h

/-- The chunk region of the packed buffer, chunk-level view. -/
lemma chunkRegion_eq (st : FrameState) (json : List ℕ) :
    chunkRegion st json = (chunksOf st.payloadSize json).1 := by
  rw [chunkRegion, packLoop_eq_chunksOf]

/-! ## Properties of the chunk-level specification -/

lemma chunksOf_nil (p : ℕ) : chunksOf p [] = ([], p) := by simp [chunksOf]

/-- Final value of `Frame::payloadSize` after the loop: updated (to the
remainder) only when a chunk boundary sees fewer than 255 remaining bytes. -/
lemma chunksOf_snd_aux :
    ∀ (n : ℕ) (s : List ℕ), s.length ≤ n → ∀ p,
      (chunksOf p s).2 = if s.length % 255 = 0 then p else s.length % 255 := by
  intro n
  induction n with
  | zero =>
    intro s hs p
    have : s = [] := List.eq_nil_of_length_eq_zero (by omega)
    subst this
    simp [chunksOf]
  | succ n ih =>
    intro s hs p
    by_cases hne : s = []
    · subst hne; simp [chunksOf]
    · have hpos : 0 < s.length := List.length_pos.mpr hne
      rw [chunksOf, dif_neg hne]
      simp only []
      by_cases hle : s.length ≤ 255
      · have hdrop : s.drop 255 = [] := List.drop_eq_nil_of_le hle
        rw [hdrop, chunksOf_nil]
        simp only [chunkSize]
        split_ifs <;> omega
      · have hlen : (s.drop 255).length ≤ n := by
          simp only [List.length_drop]; omega
        have hp' : (if s.length < chunkSize then s.length else p) = p := by
          rw [if_neg]; simp only [chunkSize]; omega
        rw [hp', ih (s.drop 255) hlen p]
        simp only [List.length_drop]
        split_ifs <;> omega

lemma chunksOf_snd (p : ℕ) (s : List ℕ) :
    (chunksOf p s).2 = if s.length % 255 = 0 then p else s.length % 255 :=
  chunksOf_snd_aux s.length s le_rfl p

/-- Number of bytes the loop writes: the document plus one marker/length
pair per chunk. -/
lemma chunksOf_fst_length_aux :
    ∀ (n : ℕ) (s : List ℕ), s.length ≤ n → ∀ p,
      (chunksOf p s).1.length = s.length + 2 * ((s.length + 254) / 255) := by
  intro n
  induction n with
  | zero =>
    intro s hs p
    have : s = [] := List.eq_nil_of_length_eq_zero (by omega)
    subst this
    simp [chunksOf]
  | succ n ih =>
    intro s hs p
    by_cases hne : s = []
    · subst hne; simp [chunksOf]
    · have hpos : 0 < s.length := List.length_pos.mpr hne
      rw [chunksOf, dif_neg hne]
      simp only [List.length_cons, List.length_append, List.length_map,
        List.length_take]
      by_cases hle : s.length ≤ 255
      · have hdrop : s.drop 255 = [] := List.drop_eq_nil_of_le hle
        rw [hdrop, chunksOf_nil]
        simp only [List.length_nil]
        omega
      · have hlen : (s.drop 255).length ≤ n := by
          simp only [List.length_drop]; omega
        rw [ih (s.drop 255) hlen]
        simp only [List.length_drop]
        omega

lemma chunksOf_fst_length (p : ℕ) (s : List ℕ) :
    (chunksOf p s).1.length = s.length + 2 * ((s.length + 254) / 255) :=
  chunksOf_fst_length_aux s.length s le_rfl p

/-! ## Properties of `chunkLens` -/

lemma chunkLens_nil : chunkLens [] = [] := by simp [chunkLens]

lemma chunkLens_length_aux :
    ∀ (n : ℕ) (s : List ℕ), s.length ≤ n →
      (chunkLens s).length = (s.length + 254) / 255 := by
  intro n
  induction n with
  | zero =>
    intro s hs
    have : s = [] := List.eq_nil_of_length_eq_zero (by omega)
    subst this
    simp [chunkLens]
  | succ n ih =>
    intro s hs
    by_cases hne : s = []
    · subst hne; simp [chunkLens]
    · have hpos : 0 < s.length := List.length_pos.mpr hne
      rw [chunkLens, dif_neg hne]
      simp only [List.length_cons]
      by_cases hle : s.length ≤ 255
      · have hdrop : s.drop 255 = [] := List.drop_eq_nil_of_le hle
        rw [hdrop, chunkLens_nil]
        simp only [List.length_nil]
        omega
      · have hlen : (s.drop 255).length ≤ n := by
          simp only [List.length_drop]; omega
        rw [ih (s.drop 255) hlen]
        simp only [List.length_drop]
        omega

lemma chunkLens_length (s : List ℕ) :
    (chunkLens s).length = (s.length + 254) / 255 :=
  chunkLens_length_aux s.length s le_rfl

lemma chunkLens_sum_aux :
    ∀ (n : ℕ) (s : List ℕ), s.length ≤ n → (chunkLens s).sum = s.length := by
  intro n
  induction n with
  | zero =>
    intro s hs
    have : s = [] := List.eq_nil_of_length_eq_zero (by omega)
    subst this
    simp [chunkLens]
  | succ n ih =>
    intro s hs
    by_cases hne : s = []
    · subst hne; simp [chunkLens]
    · have hpos : 0 < s.length := List.length_pos.mpr hne
      rw [chunkLens, dif_neg hne]
      simp only [List.sum_cons, chunkSize]
      by_cases hle : s.length ≤ 255
      · have hdrop : s.drop 255 = [] := List.drop_eq_nil_of_le hle
        rw [hdrop, chunkLens_nil]
        simp only [List.sum_nil]
        omega
      · have hlen : (s.drop 255).length ≤ n := by
          simp only [List.length_drop]; omega
        rw [ih (s.drop 255) hlen]
        simp only [List.length_drop]
        omega

lemma chunkLens_sum (s : List ℕ) : (chunkLens s).sum = s.length :=
  chunkLens_sum_aux s.length s le_rfl

/-- Shape of the length-byte sequence: all 255 except the last entry, which
is the remainder (or 255 when the length is a nonzero multiple of 255). -/
lemma chunkLens_replicate_aux :
    ∀ (n : ℕ) (s : List ℕ), s.length ≤ n → s ≠ [] →
      chunkLens s = List.replicate ((s.length + 254) / 255 - 1) 255 ++
        [if s.length % 255 = 0 then 255 else s.length % 255] := by
  intro n
  induction n with
  | zero =>
    intro s hs hne
    exact absurd (List.eq_nil_of_length_eq_zero (by omega)) hne
  | succ n ih =>
    intro s hs hne
    have hpos : 0 < s.length := List.length_pos.mpr hne
    rw [chunkLens, dif_neg hne]
    by_cases hle : s.length ≤ 255
    · have hdrop : s.drop 255 = [] := List.drop_eq_nil_of_le hle
      rw [hdrop, chunkLens_nil]
      have h1 : (s.length + 254) / 255 - 1 = 0 := by omega
      rw [h1, List.replicate_zero, List.nil_append]
      have h2 : min chunkSize s.length =
          if s.length % 255 = 0 then 255 else s.length % 255 := by
        simp only [chunkSize]
        split_ifs <;> omega
      rw [h2]
    · have hdne : s.drop 255 ≠ [] := by
        have : 0 < (s.drop 255).length := by
          simp only [List.length_drop]; omega
        exact List.length_pos.mp this
      have hlen : (s.drop 255).length ≤ n := by
        simp only [List.length_drop]; omega
      rw [ih (s.drop 255) hlen hdne]
      simp only [List.length_drop]
      have hmin : min chunkSize s.length = 255 := by
        simp only [chunkSize]; omega
      have hlast : (if (s.length - 255) % 255 = 0 then 255 else (s.length - 255) % 255) =
          (if s.length % 255 = 0 then 255 else s.length % 255) := by
        split_ifs <;> omega
      rw [hmin, hlast, ← List.cons_append, ← List.replicate_succ]
      have hcnt : (s.length - 255 + 254) / 255 - 1 + 1 = (s.length + 254) / 255 - 1 := by
        omega
      rw [hcnt]

lemma chunkLens_replicate (s : List ℕ) (hne : s ≠ []) :
    chunkLens s = List.replicate ((s.length + 254) / 255 - 1) 255 ++
      [if s.length % 255 = 0 then 255 else s.length % 255] :=
  chunkLens_replicate_aux s.length s le_rfl hne

/-! ## Parsing and stripping the chunk region -/

lemma parseChunks_nil : parseChunks [] = some [] := by simp [parseChunks]

lemma parseChunks_cons (m len : ℕ) (rest : List ℕ) :
    parseChunks (m :: len :: rest) =
      if m = IDWhisperPayload ∧ len ≤ rest.length then
        (parseChunks (rest.drop len)).map (fun cs => (len, rest.take len) :: cs)
      else none := by
  rw [parseChunks]

/-- With the default `payloadSize = 255` at loop entry, the emitted chunk
region parses back into a chunk list whose length bytes are `chunkLens`. -/
lemma parseChunks_chunksOf_aux :
    ∀ (n : ℕ) (s : List ℕ), s.length ≤ n →
      ∃ cs, parseChunks (chunksOf 255 s).1 = some cs ∧
        cs.map Prod.fst = chunkLens s := by
  intro n
  induction n with
  | zero =>
    intro s hs
    have : s = [] := List.eq_nil_of_length_eq_zero (by omega)
    subst this
    exact ⟨[], by simp [chunksOf, parseChunks_nil], by simp [chunkLens]⟩
  | succ n ih =>
    intro s hs
    by_cases hne : s = []
    · subst hne
      exact ⟨[], by simp [chunksOf, parseChunks_nil], by simp [chunkLens]⟩
    · have hpos : 0 < s.length := List.length_pos.mpr hne
      rw [chunksOf, dif_neg hne]
      simp only []
      by_cases hlt : s.length < chunkSize
      · have hlt' : s.length < 255 := by simpa [chunkSize] using hlt
        have hdrop : s.drop 255 = [] := List.drop_eq_nil_of_le (by omega)
        rw [if_pos hlt, hdrop, chunksOf_nil]
        have hmod : s.length % 256 = s.length := Nat.mod_eq_of_lt (by omega)
        have hdata : ((s.take 255).map nextByte).length = s.length := by
          simp only [List.length_map, List.length_take]; omega
        refine ⟨[(s.length, (s.take 255).map nextByte)], ?_, ?_⟩
        · rw [List.append_nil, hmod, parseChunks_cons,
            if_pos ⟨rfl, le_of_eq hdata.symm⟩,
            List.drop_eq_nil_of_le (le_of_eq hdata),
            List.take_of_length_le (le_of_eq hdata), parseChunks_nil]
          rfl
        · rw [chunkLens, dif_neg hne, hdrop, chunkLens_nil]
          have : min chunkSize s.length = s.length := by
            simp only [chunkSize]; omega
          simp [this]
      · have hge : 255 ≤ s.length := by
          simp only [chunkSize] at hlt; omega
        have hlen : (s.drop 255).length ≤ n := by
          simp only [List.length_drop]; omega
        obtain ⟨cs', hp', hm'⟩ := ih (s.drop 255) hlen
        rw [if_neg hlt]
        have hdata : ((s.take 255).map nextByte).length = 255 := by
          simp only [List.length_map, List.length_take]; omega
        refine ⟨(255, (s.take 255).map nextByte) :: cs', ?_, ?_⟩
        · have h255 : (255 : ℕ) % 256 = 255 := by norm_num
          rw [h255, parseChunks_cons,
            if_pos ⟨rfl, by rw [List.length_append, hdata]; omega⟩,
            List.drop_left' hdata, List.take_left' hdata, hp']
          rfl
        · rw [chunkLens, dif_neg hne]
          have : min chunkSize s.length = 255 := by
            simp only [chunkSize]; omega
          simp [this, hm']

lemma parseChunks_chunksOf (s : List ℕ) :
    ∃ cs, parseChunks (chunksOf 255 s).1 = some cs ∧
      cs.map Prod.fst = chunkLens s :=
  parseChunks_chunksOf_aux s.length s le_rfl

lemma stripChunkHeaders_nil : stripChunkHeaders [] = [] := by
  simp [stripChunkHeaders]

lemma stripChunkHeaders_cons (m len : ℕ) (rest : List ℕ) :
    stripChunkHeaders (m :: len :: rest) =
      rest.take 255 ++ stripChunkHeaders (rest.drop 255) := by
  rw [stripChunkHeaders]

/-- Structurally skipping each chunk's marker and length byte recovers the
substituted document, for any incoming `payloadSize`. -/
lemma stripChunkHeaders_chunksOf_aux :
    ∀ (n : ℕ) (s : List ℕ), s.length ≤ n → ∀ p,
      stripChunkHeaders (chunksOf p s).1 = s.map nextByte := by
  intro n
  induction n with
  | zero =>
    intro s hs p
    have : s = [] := List.eq_nil_of_length_eq_zero (by omega)
    subst this
    simp [chunksOf, stripChunkHeaders_nil]
  | succ n ih =>
    intro s hs p
    by_cases hne : s = []
    · subst hne; simp [chunksOf, stripChunkHeaders_nil]
    · have hpos : 0 < s.length := List.length_pos.mpr hne
      rw [chunksOf, dif_neg hne]
      simp only []
      rw [stripChunkHeaders_cons]
      by_cases hle : s.length ≤ 255
      · have hdrop : s.drop 255 = [] := List.drop_eq_nil_of_le hle
        rw [hdrop, chunksOf_nil]
        have hdata : ((s.take 255).map nextByte).length ≤ 255 := by
          simp only [List.length_map, List.length_take]; omega
        rw [List.append_nil, List.take_of_length_le hdata,
          List.drop_eq_nil_of_le hdata, stripChunkHeaders_nil,
          List.append_nil, List.take_of_length_le hle]
      · have hlen : (s.drop 255).length ≤ n := by
          simp only [List.length_drop]; omega
        have hdata : ((s.take 255).map nextByte).length = 255 := by
          simp only [List.length_map, List.length_take]; omega
        rw [List.take_left' hdata, List.drop_left' hdata, ih (s.drop 255) hlen,
          ← List.map_append, List.take_append_drop]

lemma stripChunkHeaders_chunksOf (p : ℕ) (s : List ℕ) :
    stripChunkHeaders (chunksOf p s).1 = s.map nextByte :=
  stripChunkHeaders_chunksOf_aux s.length s le_rfl p

/-! ## Buffer-level structure of the packed frame -/

lemma drop_append_left (x z : List ℕ) (k : ℕ) :
    (x ++ z).drop (x.length + k) = z.drop k := by
  induction x with
  | nil => simp
  | cons a x ih =>
    simp only [List.cons_append, List.length_cons]
    have h : x.length + 1 + k = (x.length + k) + 1 := by omega
    rw [h, List.drop_succ_cons, ih]

lemma listResize_length (l : List ℕ) (n : ℕ) : (listResize l n).length = n := by
  simp only [listResize, List.length_append, List.length_take,
    List.length_replicate]
  omega

/-- Writing the header at offset 0 and then `d` at offset
`pwngridHeaderLength` yields header ++ d ++ untouched tail. -/
lemma listOverwrite_header (l d : List ℕ) :
    listOverwrite (listOverwrite l 0 header) pwngridHeaderLength d =
      header ++ d ++ l.drop (pwngridHeaderLength + d.length) := by
  simp only [listOverwrite, pwngridHeaderLength, List.take_zero, Nat.zero_add,
    List.nil_append]
  rw [List.take_left, drop_append_left, List.drop_drop]

/-- The packed buffer is the header, then the chunk region, then the
untouched slack of the resized buffer. -/
lemma pack_beaconFrame_eq (st : FrameState) (json : List ℕ) :
    (pack st json).beaconFrame =
      header ++ chunkRegion st json ++
        (listResize st.beaconFrame (bufSize json.length)).drop
          (pwngridHeaderLength + (chunkRegion st json).length) := by
  simp only [pack, chunkRegion, bufSize]
  exact listOverwrite_header _ _

lemma pack_payloadSize_eq (st : FrameState) (json : List ℕ) :
    (pack st json).payloadSize = (chunksOf st.payloadSize json).2 := by
  simp only [pack]
  rw [packLoop_eq_chunksOf]

/-- All loop writes stay inside the resized buffer as long as the `uint8_t`
header-length estimate has not wrapped (`essidLength < 128 * 255 = 32640`). -/
lemma payload_fits (st : FrameState) (json : List ℕ)
    (h : json.length < 32640) :
    pwngridHeaderLength + (chunkRegion st json).length ≤ bufSize json.length := by
  rw [chunkRegion_eq, chunksOf_fst_length]
  have hphl : pwngridHeaderLength = 36 := rfl
  simp only [bufSize, headerLengthOf, chunkSize, hphl]
  omega

/-- The length `Frame::send` hands to the radio is the full resized size:
header + document + header-length estimate + 255 bytes of slack. -/
lemma sentLength_eq_bufSize (st : FrameState) (json : List ℕ)
    (h : json.length < 32640) :
    sentLength st json = bufSize json.length := by
  have hfit := payload_fits st json h
  rw [sentLength, pack_beaconFrame_eq]
  simp only [List.length_append, List.length_drop, listResize_length]
  have hphl : (header : List ℕ).length = pwngridHeaderLength := rfl
  omega

/-! ## The advertise loop -/

lemma advertise_rateLine_aux (ok : ℕ → Bool) (el : ℕ → ℕ) :
    ∀ (l : List ℕ) (acc : ℕ × List AdvEvent),
      (∀ q e, AdvEvent.rateLine q e ∈ acc.2 → e ≠ 0 ∧ 1 ≤ q) →
      ∀ q e, AdvEvent.rateLine q e ∈
          (l.foldl (fun st i =>
            let r := advertiseStep (ok i) (el i) st.1
            (r.1, st.2 ++ r.2)) acc).2 →
        e ≠ 0 ∧ 1 ≤ q := by
  intro l
  induction l with
  | nil => intro acc hacc q e hmem; exact hacc q e hmem
  | cons i l ih =>
    intro acc hacc q e hmem
    refine ih _ ?_ q e hmem
    intro q' e' hmem'
    simp only [advertiseStep] at hmem'
    by_cases hok : ok i
    · by_cases hel : el i = 0
      · simp only [hok, hel, if_true, if_pos rfl, List.mem_append] at hmem'
        rcases hmem' with hold | hnew
        · exact hacc q' e' hold
        · simp at hnew
      · simp only [hok, if_true, if_neg hel, List.mem_append, List.mem_cons,
          List.not_mem_nil, or_false] at hmem'
        rcases hmem' with hold | h1 | h2
        · exact hacc q' e' hold
        · exact AdvEvent.noConfusion h1
        · obtain ⟨hq, he⟩ := AdvEvent.rateLine.inj h2
          exact ⟨by omega, by omega⟩
    · simp only [hok, if_neg, Bool.false_eq_true, not_false_iff,
        List.mem_append] at hmem'
      rcases hmem' with hold | hnew
      · exact hacc q' e' hold
      · simp at hnew

/-! ## Claim theorems -/

/-- Claim C1 (corrected): with the default `payloadSize = 255` at loop entry
(its initial value), the chunk region of the buffer produced by `Frame::pack`
parses into exactly `(L + 254) / 255 = ceil(L / 255)` chunks whose length
bytes sum to `L`.  For `L = 0` that count is zero: the loop body never runs,
so no chunk at all is emitted (not "at least one"). -/
theorem claim_C1_chunk_count_and_sum (st : FrameState) (json : List ℕ)
    (h : st.payloadSize = 255) :
    ∃ cs, parseChunks (chunkRegion st json) = some cs ∧
      cs.length = (json.length + 254) / 255 ∧
      (cs.map Prod.fst).sum = json.length := by
  rw [chunkRegion_eq, h]
  obtain ⟨cs, hp, hm⟩ := parseChunks_chunksOf json
  refine ⟨cs, hp, ?_, ?_⟩
  · have hlen := congrArg List.length hm
    simpa [chunkLens_length] using hlen
  · rw [hm, chunkLens_sum]

/-- Witness for C1: a 300-byte document packed from the initial state. -/
theorem claim_C1_witness :
    initState.payloadSize = 255 ∧
    ∃ cs, parseChunks (chunkRegion initState (List.replicate 300 97)) = some cs ∧
      cs.length = ((List.replicate 300 97 : List ℕ).length + 254) / 255 ∧
      (cs.map Prod.fst).sum = (List.replicate 300 97 : List ℕ).length :=
  ⟨rfl, claim_C1_chunk_count_and_sum initState (List.replicate 300 97) rfl⟩

/-- Counterexample to C1 as stated: for the empty document the chunk region
is empty and parses to zero chunks, contradicting "at least one chunk when
L == 0". -/
theorem claim_C1_counterexample :
    chunkRegion initState [] = [] ∧
    parseChunks (chunkRegion initState []) = some [] ∧
    ¬1 ≤ ([] : List (ℕ × List ℕ)).length :=
  ⟨rfl, parseChunks_nil, by decide⟩

/-- Claim C2 (corrected): with the default `payloadSize = 255` at loop
entry, the parsed chunk region has exactly `ceil(L / 255)` chunks, every
length byte except the last is 255, and the last length byte is
`L mod 255` — or 255 when `L` is a nonzero multiple of 255, with no
trailing zero-length chunk. -/
theorem claim_C2_length_bytes (st : FrameState) (json : List ℕ)
    (h : st.payloadSize = 255) (hne : json ≠ []) :
    ∃ cs, parseChunks (chunkRegion st json) = some cs ∧
      cs.length = (json.length + 254) / 255 ∧
      cs.map Prod.fst = List.replicate (cs.length - 1) 255 ++
        [if json.length % 255 = 0 then 255 else json.length % 255] := by
  rw [chunkRegion_eq, h]
  obtain ⟨cs, hp, hm⟩ := parseChunks_chunksOf json
  have hlen : cs.length = (json.length + 254) / 255 := by
    have := congrArg List.length hm
    simpa [chunkLens_length] using this
  refine ⟨cs, hp, hlen, ?_⟩
  rw [hm, chunkLens_replicate json hne, hlen]

/-- Witness for C2: a 255-byte document (nonzero multiple of 255) packed
from the initial state. -/
theorem claim_C2_witness :
    initState.payloadSize = 255 ∧ (List.replicate 255 97 : List ℕ) ≠ [] ∧
    ∃ cs, parseChunks (chunkRegion initState (List.replicate 255 97)) = some cs ∧
      cs.length = ((List.replicate 255 97 : List ℕ).length + 254) / 255 ∧
      cs.map Prod.fst = List.replicate (cs.length - 1) 255 ++
        [if (List.replicate 255 97 : List ℕ).length % 255 = 0 then 255
         else (List.replicate 255 97 : List ℕ).length % 255] :=
  ⟨rfl, by decide, claim_C2_length_bytes initState (List.replicate 255 97) rfl (by decide)⟩

/-- Counterexample to C2 as stated: `payloadSize` survives across `pack`
calls.  Packing a 300-byte document from the initial state leaves
`payloadSize = 45`; packing a 255-byte document next emits a single chunk
whose length byte is the stale 45, although `L = 255` is a nonzero multiple
of 255 and the claim requires the length byte 255. -/
theorem claim_C2_counterexample :
    (pack initState (List.replicate 300 97)).payloadSize = 45 ∧
    chunkRegion (pack initState (List.replicate 300 97)) (List.replicate 255 97) =
      IDWhisperPayload :: 45 :: List.replicate 255 97 ∧
    (((pack (pack initState (List.replicate 300 97)) (List.replicate 255 97)).beaconFrame.drop
        36).take 2) = [IDWhisperPayload, 45] ∧
    (45 : ℕ) ≠ 255 ∧ (List.replicate 255 97 : List ℕ).length % 255 = 0 := by
  decide

/-- Claim C3 (code bug): `Frame::send` transmits
`beaconFrame.size() = pwngridHeaderLength + L + headerLengthEstimate + 255`
— the full over-allocated capacity — not the exact written length
`pwngridHeaderLength + L + 2 × chunks` the specification requires.  For a
1-byte document the radio gets 292 bytes instead of 39. -/
theorem claim_C3_sent_length_bug :
    sentLength initState [97] = 292 ∧
    bufSize 1 = 292 ∧
    pwngridHeaderLength + 1 + 2 * 1 = 39 ∧
    (292 : ℕ) ≠ 39 := by
  decide

/-- Claim C4 (corrected): for the empty document the loop body never runs:
no chunk is written at all.  The buffer is the 36-byte header followed by
255 bytes of untouched slack (zeros when starting from the fresh, empty
buffer), not `header ++ [marker, 0x00]`. -/
theorem claim_C4_empty_document (st : FrameState) :
    chunkRegion st [] = [] ∧
    (pack initState []).beaconFrame = header ++ List.replicate 255 0 :=
  ⟨rfl, by decide⟩

/-- Counterexample to C4 as stated: the buffer packed from the empty
document is not `header ++ [marker, 0x00]`; the byte at the first chunk
position is 0, not the marker. -/
theorem claim_C4_counterexample :
    (pack initState []).beaconFrame ≠ header ++ [IDWhisperPayload, 0] ∧
    (pack initState []).beaconFrame.length = 291 ∧
    ((pack initState []).beaconFrame.drop 36).take 2 = [0, 0] := by
  decide

/-- Claim C5 (confirmed): for every document and every incoming state,
concatenating the data bytes of all chunks (structurally skipping each
chunk's marker and length byte) reproduces the document with each
non-ASCII byte (≥ 0x80) replaced by 0x3F and each ASCII byte verbatim. -/
theorem claim_C5_roundtrip (st : FrameState) (json : List ℕ) :
    stripChunkHeaders (chunkRegion st json) = json.map nextByte := by
  rw [chunkRegion_eq, stripChunkHeaders_chunksOf]

/-- Claim C6 (confirmed): on every invocation, for any state and any
document, the first `pwngridHeaderLength = 36` bytes of the packed buffer
are exactly the fixed header template. -/
theorem claim_C6_header_preserved (st : FrameState) (json : List ℕ) :
    (pack st json).beaconFrame.take pwngridHeaderLength = header ∧
    pwngridHeaderLength = 36 := by
  refine ⟨?_, rfl⟩
  rw [pack_beaconFrame_eq, List.append_assoc]
  simp only [pwngridHeaderLength]
  exact List.take_left _ _

/-- Claim C7 (confirmed): `payloadSize` is updated only at a chunk boundary
whose remaining byte count is below 255, to that remainder: after `pack` it
equals `L mod 255` when that is nonzero and is otherwise unchanged.  The
persisted value is what the next `pack` call emits as the length byte of a
boundary with at least 255 remaining bytes (the first chunk of a document
with `L ≥ 255`). -/
theorem claim_C7_payloadSize_persistence (st : FrameState) (json : List ℕ) :
    (pack st json).payloadSize =
      (if json.length % 255 = 0 then st.payloadSize else json.length % 255) ∧
    (chunkSize ≤ json.length →
      (chunkRegion st json).take 2 = [IDWhisperPayload, st.payloadSize % 256]) := by
  constructor
  · rw [pack_payloadSize_eq, chunksOf_snd]
  · intro hj
    have hne : json ≠ [] := by
      intro hh
      rw [hh] at hj
      simp [chunkSize] at hj
    rw [chunkRegion_eq, chunksOf, dif_neg hne]
    have hp : (if json.length < chunkSize then json.length else st.payloadSize) =
        st.payloadSize := by
      rw [if_neg]; omega
    simp [hp]

/-- Witness for C7: a 255-byte document whose length is a multiple of 255,
so `payloadSize` is untouched and the first chunk's length byte is the
incoming `payloadSize`. -/
theorem claim_C7_witness :
    chunkSize ≤ (List.replicate 255 97 : List ℕ).length ∧
    (pack initState (List.replicate 255 97)).payloadSize =
      (if (List.replicate 255 97 : List ℕ).length % 255 = 0 then initState.payloadSize
       else (List.replicate 255 97 : List ℕ).length % 255) ∧
    (chunkRegion initState (List.replicate 255 97)).take 2 =
      [IDWhisperPayload, initState.payloadSize % 256] :=
  ⟨by decide,
   (claim_C7_payloadSize_persistence initState (List.replicate 255 97)).1,
   (claim_C7_payloadSize_persistence initState (List.replicate 255 97)).2 (by decide)⟩

/-- Claim C8 (confirmed): with the advertise flag false, `Frame::advertise`
performs no raw-transmit call at all — its event trace is empty. -/
theorem claim_C8_disabled_no_tx (ok : ℕ → Bool) (elapsedMs : ℕ → ℕ) :
    advertise false ok elapsedMs = [] ∧
    (advertise false ok elapsedMs).countP isTxCall = 0 := by
  simp [advertise]

/-- Claim C9 (confirmed): every packets-per-second line emitted by
`Frame::advertise` has nonzero elapsed time (so `packets / elapsed * 1000`
is finite) and a positive packet count; with zero elapsed time `isinf(pps)`
holds and no rate line is emitted. -/
theorem claim_C9_pps_finite (flag : Bool) (ok : ℕ → Bool) (elapsedMs : ℕ → ℕ)
    (q e : ℕ) (hmem : AdvEvent.rateLine q e ∈ advertise flag ok elapsedMs) :
    e ≠ 0 ∧ 1 ≤ q := by
  rcases flag with _ | _
  · simp [advertise] at hmem
  · simp only [advertise, if_true] at hmem
    exact advertise_rateLine_aux ok elapsedMs (List.range 150) (0, [])
      (by intro q' e' h; simp at h) q e hmem

/-- Witness for C9: with every send succeeding and 1 ms elapsed, the trace
contains the rate line for the first packet. -/
theorem claim_C9_witness :
    AdvEvent.rateLine 1 1 ∈ advertise true (fun _ => true) (fun _ => 1) ∧
    (1 : ℕ) ≠ 0 ∧ 1 ≤ 1 :=
  ⟨by decide, claim_C9_pps_finite true (fun _ => true) (fun _ => 1) 1 1 (by decide)⟩

/-- Claim C10 (confirmed): for every document shorter than 32640 bytes
(where the `uint8_t` header-length estimate would first wrap; any document
from the 2048-byte JSON allocation is far below), all bytes the chunking
loop writes — markers, length bytes and data, at consecutive offsets
`pwngridHeaderLength .. pwngridHeaderLength + region length - 1` — lie
strictly inside the resized buffer of size `bufSize L`. -/
theorem claim_C10_no_overflow (st : FrameState) (json : List ℕ)
    (h : json.length < 32640) :
    pwngridHeaderLength + (chunkRegion st json).length ≤ bufSize json.length :=
  payload_fits st json h

/-- Witness for C10: a 300-byte document. -/
theorem claim_C10_witness :
    (List.replicate 300 97 : List ℕ).length < 32640 ∧
    pwngridHeaderLength + (chunkRegion initState (List.replicate 300 97)).length ≤
      bufSize (List.replicate 300 97 : List ℕ).length :=
  ⟨by decide, claim_C10_no_overflow initState (List.replicate 300 97) (by decide)⟩

end Minigotchi
